import Mathlib

/-!
Verification of `export_static_site.py` (LOGODAEDALY static-site exporter).

Python strings are modelled as `List Char` (`Str`).  Every function below is a
shallow embedding of the correspondingly named Python function; fallible code
returns `Option`.  File-system writes and the database are modelled as pure
data: the functions return the list of (file name, content) pairs the script
would write, and `exportTrace` records the order of I/O effects of one run.
-/

set_option autoImplicit false

namespace Logodaedaly

/-- Python strings are modelled as lists of characters. -/
abbrev Str := List Char

/-- Decimal digit character, `str(d)` for `d < 10`. -/
def digitChar (n : Nat) : Char :=
  if n = 0 then '0' else if n = 1 then '1' else if n = 2 then '2'
  else if n = 3 then '3' else if n = 4 then '4' else if n = 5 then '5'
  else if n = 6 then '6' else if n = 7 then '7' else if n = 8 then '8'
  else if n = 9 then '9' else '?'

/-- Fuel-driven accumulator loop behind `pyStr`: prepends the decimal digits
of `n` to `acc`, least significant digit first computed, stopping when the
quotient reaches zero.  The fuel argument only forces termination; `pyStr`
always passes enough. -/
def digitsAux : Nat → Nat → Str → Str
  | 0, _, acc => acc
  | fuel + 1, n, acc =>
    let acc' := digitChar (n % 10) :: acc
    if n / 10 = 0 then acc' else digitsAux fuel (n / 10) acc'

/-- Python `str(n)` for a natural number: decimal, no leading zeros, `0 ↦ "0"`. -/
def pyStr (n : Nat) : Str := digitsAux (n + 1) n []

/-- Python `f"{n:04d}"`: decimal text of `n`, left-padded with zeros to width
at least 4 (wider numbers keep their full width). -/
def pyFormat04d (n : Nat) : Str :=
  List.replicate (4 - (pyStr n).length) '0' ++ pyStr n

/-- Python string `<` (strict lexicographic comparison by code point). -/
def strLtB : Str → Str → Bool
  | [], [] => false
  | [], _ :: _ => true
  | _ :: _, [] => false
  | a :: as, b :: bs => if a < b then true else if b < a then false else strLtB as bs

/-- Does `p` start the list `l`?  (Helper for substring search.) -/
def startsWith : Str → Str → Bool
  | [], _ => true
  | _ :: _, [] => false
  | a :: as, b :: bs => a == b && startsWith as bs

/-- Split `l` at the first occurrence of `pat`: returns the text before the
occurrence and the text after it, or `none` when `pat` does not occur.
This is the search underlying Python `pat in l` and `l.replace(pat, r, 1)`. -/
def splitOnFirst (pat : Str) : Str → Option (Str × Str)
  | [] => if startsWith pat [] then some ([], []) else none
  | c :: r =>
    if startsWith pat (c :: r) then some ([], (c :: r).drop pat.length)
    else (splitOnFirst pat r).map (fun q => (c :: q.1, q.2))

/-- Python `l.replace(pat, rep, 1)`: replace the first occurrence of `pat`
(if any) by `rep`. -/
def pyReplaceFirst (pat rep l : Str) : Str :=
  match splitOnFirst pat l with
  | none => l
  | some (b, a) => b ++ rep ++ a

/-- Python `"\n".join(lines)`. -/
def joinNL : List Str → Str
  | [] => []
  | [l] => l
  | l :: ls => l ++ '\n' :: joinNL ls

/-- Python `s.rstrip("/")`: remove every trailing `/`. -/
def rstripSlash (s : Str) : Str :=
  (s.reverse.dropWhile (fun c => c = '/')).reverse

/-! ### Slug Assigner (`slugify`, `ensure_unique_slug`) -/

/-- Membership in the character class `[a-z0-9]` of `SLUG_SAFE_RE`. -/
def isAlnumLower (c : Char) : Bool :=
  ('a' ≤ c && c ≤ 'z') || ('0' ≤ c && c ≤ '9')

/-- Characters a finished slug may contain: `[a-z0-9-]`. -/
def isSlugOutChar (c : Char) : Bool := isAlnumLower c || c = '-'

/-- Characters removed by Python `str.strip()` with no argument (the ASCII
whitespace set; the further Unicode space code points Python also strips do
not affect any property proved here, since every non-`[a-z0-9]` character is
replaced by `-` downstream anyway). -/
def pySpaceChar (c : Char) : Bool :=
  c = ' ' || c = '\t' || c = '\n' || c = '\x0d' || c = '\x0b' || c = '\x0c'

/-- Strip characters satisfying `p` from both ends of a list (Python
`str.strip` / `str.strip("-")`). -/
def stripEnds (p : Char → Bool) (l : Str) : Str :=
  ((l.dropWhile p).reverse.dropWhile p).reverse

/-- Loop behind `squash`: the Boolean flag records whether we are inside a
run of non-`[a-z0-9]` characters whose replacement `-` was already emitted. -/
def squashAux : Bool → Str → Str
  | _, [] => []
  | inRun, c :: r =>
    if isAlnumLower c then c :: squashAux false r
    else if inRun then squashAux true r
    else '-' :: squashAux true r

/-- `SLUG_SAFE_RE.sub("-", s)`: replace every maximal run of characters
outside `[a-z0-9]` with a single `-`. -/
def squash (l : Str) : Str := squashAux false l

/-- Per-character lowercasing as used by Python `str.lower()`.  `Char.toLower`
agrees with Python on ASCII; non-ASCII case differences are irrelevant to
`slugify`, whose next step replaces every non-`[a-z0-9]` character by `-`. -/
def pyLowerChar (c : Char) : Char := c.toLower

/-- `slugify`, parameterised by the Unicode normalisation function so that
its properties can be proved for an arbitrary normaliser. -/
def slugifyWith (norm : Str → Str) (text : Str) : Str :=
  if text = [] then "untitled".data
  else
    let s := (stripEnds pySpaceChar (norm text)).map pyLowerChar
    let s2 := stripEnds (fun c => c = '-') (squash s)
    if s2 = [] then "untitled".data else s2

/-- Modelled from the spec: `unicodedata.normalize("NFKC", text)` is the
external Unicode library, not repository code.  NFKC is the identity on
NFKC-normal text, which covers every concrete lemma analysed in this file
(ASCII text and the precomposed letter `é` are NFKC fixed points); the
universally quantified slug properties below are proved for an arbitrary
normaliser via `slugifyWith`, so they do not depend on this equation. -/
def nfkc (s : Str) : Str := s

/-- `slugify` of the script: NFKC-normalise, strip, lowercase, replace
non-`[a-z0-9]` runs by `-`, strip `-`, with fallback `"untitled"`. -/
def slugify (text : Str) : Str := slugifyWith nfkc text

/-- The slug-collision counter map (a Python dict keyed by base slug,
modelled as an insertion-ordered association list). -/
abbrev UsedMap := List (Str × Nat)

/-- Dict lookup `used[slug]`. -/
def lookupUsed (used : UsedMap) (s : Str) : Option Nat :=
  match used with
  | [] => none
  | p :: r => if p.1 = s then some p.2 else lookupUsed r s

/-- Dict update `used[slug] = n`, in place. -/
def updateUsed (used : UsedMap) (s : Str) (n : Nat) : UsedMap :=
  match used with
  | [] => []
  | p :: r => if p.1 = s then (p.1, n) :: r else p :: updateUsed r s n

/-- `ensure_unique_slug(slug, used)`: first sight of a base slug registers it
with count 1 and returns it unchanged; a repeat increments the count `n` and
returns `f"{slug}-{n}"`.  Returns the slug together with the updated map. -/
def ensure_unique_slug (slug : Str) (used : UsedMap) : Str × UsedMap :=
  match lookupUsed used slug with
  | none => (slug, used ++ [(slug, 1)])
  | some n => (slug ++ '-' :: pyStr (n + 1), updateUsed used slug (n + 1))

/-- The slug-assignment loop of `write_site`, restricted to a list of lemma
strings: `ensure_unique_slug(slugify(lemma), used)` with the counter map
threaded through the whole run. -/
def assignSlugsAux (used : UsedMap) : List Str → List Str
  | [] => []
  | l :: ls =>
    let r := ensure_unique_slug (slugify l) used
    r.1 :: assignSlugsAux r.2 ls

/-- Slug assignment for one run, starting from the empty counter map. -/
def assignSlugs (lemmas : List Str) : List Str := assignSlugsAux [] lemmas

/-! ### Row Aggregator (`fetch_entries`)

The database cursor is modelled as the list of rows it yields; database
values other than the lemma are passed through untouched, so their type is a
parameter `α`. -/

/-- One flat row of the entry–sense join consumed by `fetch_entries`. -/
structure Row (α : Type) where
  entry_id : α
  lemma_ : Str
  pos : α
  ipa : α
  freq : α
  morphology : α
  etymology : α
  related : α
  sense_id : α
  attr : α
  def_ : α
  ex : α
deriving DecidableEq

/-- One sense dict appended to `entries[lemma]["senses"]`. -/
structure SenseRec (α : Type) where
  id : α
  attr : α
  def_ : α
  ex : α
deriving DecidableEq

/-- One aggregated entry dict of `fetch_entries`. -/
structure EntryRec (α : Type) where
  lemma_ : Str
  ipa : α
  pos : α
  freq : α
  morphology : α
  etymology : α
  related : α
  senses : List (SenseRec α)
deriving DecidableEq

/-- The sense dict built from one row. -/
def senseOfRow {α : Type} (r : Row α) : SenseRec α :=
  ⟨r.sense_id, r.attr, r.def_, r.ex⟩

/-- The entry dict created on first sight of a lemma (senses start empty). -/
def freshEntry {α : Type} (r : Row α) : EntryRec α :=
  ⟨r.lemma_, r.ipa, r.pos, r.freq, r.morphology, r.etymology, r.related, []⟩

/-- `entries[lemma]["senses"].append(sense)`. -/
def addSense {α : Type} (e : EntryRec α) (s : SenseRec α) : EntryRec α :=
  { e with senses := e.senses ++ [s] }

/-- The body of the row loop of `fetch_entries`: the Python dict `entries`
is modelled as an insertion-ordered association list; a missing key is
appended at the end, and the row's sense is then appended to the entry
stored under the row's lemma. -/
def insertRow {α : Type} (acc : List (Str × EntryRec α)) (r : Row α) :
    List (Str × EntryRec α) :=
  let acc' := if acc.any (fun p => p.1 = r.lemma_) then acc
              else acc ++ [(r.lemma_, freshEntry r)]
  acc'.map (fun p => if p.1 = r.lemma_ then (p.1, addSense p.2 (senseOfRow r)) else p)

/-- `fetch_entries`, with the database cursor replaced by the row list it
yields: aggregate rows into entries keyed by lemma and return
`list(entries.values())`. -/
def fetch_entries {α : Type} (rows : List (Row α)) : List (EntryRec α) :=
  (rows.foldl insertRow []).map Prod.snd

/-- The entry an adjacent run `r :: t` of rows with one lemma aggregates to:
entry-level fields from the first row `r`, senses from every row in order. -/
def entryOfRun {α : Type} (r : Row α) (t : List (Row α)) : EntryRec α :=
  { freshEntry r with senses := (r :: t).map senseOfRow }

/-! ### Chunk Writer (`chunked` and the chunk/manifest loop of `write_site`) -/

/-- The windows `items[i*k : i*k+k]` for `i < ⌈items.length / k⌉`: the value
of the comprehension `[items[i:i + size] for i in range(0, len(items), size)]`
for a positive `size = k` (Python `range(0, n, k)` yields exactly the
multiples of `k` below `n`, one per window). -/
def chunksOf {α : Type} (k : Nat) (l : List α) : List (List α) :=
  (List.range ((l.length + k - 1) / k)).map (fun i => (l.drop (i * k)).take k)

/-- `chunked(items, size)` with Python `range` semantics for an arbitrary
integer `size`: step 0 raises `ValueError` (`none`); a negative step makes
`range(0, len(items), size)` empty, so the chunk list is empty. -/
def chunkedPy {α : Type} (items : List α) (size : Int) : Option (List (List α)) :=
  if size = 0 then none
  else if 0 < size then some (chunksOf size.toNat items)
  else some []

/-- One manifest record `{"lemma": ..., "slug": ..., "chunk": ...}`. -/
structure MRec where
  lemma_ : Str
  slug : Str
  chunk : Str
deriving DecidableEq

/-- `f"chunk-{i:04d}.json"`. -/
def chunkName (i : Nat) : Str :=
  "chunk-".data ++ pyFormat04d i ++ ".json".data

/-- The slug-enrichment loop of `write_site`: pair every entry with the slug
`ensure_unique_slug(slugify(entry["lemma"]), used)` assigns it, threading the
shared counter map through the run. -/
def enrichAux {α : Type} (used : UsedMap) :
    List (EntryRec α) → List (EntryRec α × Str)
  | [] => []
  | e :: es =>
    let r := ensure_unique_slug (slugify e.lemma_) used
    (e, r.1) :: enrichAux r.2 es

/-- Slug enrichment for one run (`used_slugs = {}`). -/
def enrichEntries {α : Type} (entries : List (EntryRec α)) : List (EntryRec α × Str) :=
  enrichAux [] entries

/-- The chunk/manifest loop of `write_site`: split the enriched entries with
`chunked`, name chunk `i` `chunk-{i:04d}.json`, and emit one manifest record
per entry in chunk order.  Returns the chunk files (name, content before JSON
serialisation) and the manifest, or `none` when `chunked` raises. -/
def writeChunks {α : Type} (enriched : List (EntryRec α × Str)) (size : Int) :
    Option (List (Str × List (EntryRec α × Str)) × List MRec) :=
  (chunkedPy enriched size).map (fun cs =>
    ((cs.enum.map (fun p => (chunkName p.1, p.2))),
     (cs.enum.map (fun p =>
        p.2.map (fun e => MRec.mk e.1.lemma_ e.2 (chunkName p.1)))).flatten))

/-! ### Sitemap (`write_sitemap`) -/

/-- The URL list of `write_sitemap`: the root URL followed by
`f"{base}/lemma/{m['slug']}"` per manifest record, with the base URL first
stripped of trailing slashes. -/
def sitemapUrls (manifest : List MRec) (base_url : Str) : List Str :=
  let base := rstripSlash base_url
  (base ++ "/".data) :: manifest.map (fun m => base ++ "/lemma/".data ++ m.slug)

/-- `render_urlset(url_list)`. -/
def render_urlset (url_list : List Str) : Str :=
  joinNL (["<?xml version=\"1.0\" encoding=\"UTF-8\"?>".data,
           "<urlset xmlns=\"http://www.sitemaps.org/schemas/sitemap/0.9\">".data]
          ++ url_list.map (fun u => "  <url><loc>".data ++ u ++ "</loc></url>".data)
          ++ ["</urlset>".data]) ++ "\n".data

/-- `f"sitemap-{i}.xml"`. -/
def smName (i : Nat) : Str := "sitemap-".data ++ pyStr i ++ ".xml".data

/-- The sitemap-index document listing each sub-sitemap under `base`. -/
def renderIndexDoc (base : Str) (names : List Str) : Str :=
  joinNL (["<?xml version=\"1.0\" encoding=\"UTF-8\"?>".data,
           "<sitemapindex xmlns=\"http://www.sitemaps.org/schemas/sitemap/0.9\">".data]
          ++ names.map (fun nm =>
               "  <sitemap><loc>".data ++ base ++ "/".data ++ nm ++ "</loc></sitemap>".data)
          ++ ["</sitemapindex>".data]) ++ "\n".data

/-- `write_sitemap(out_dir, manifest, base_url)`: returns the files written
(in write order, as name–content pairs) and the function's return value (the
number of sitemap files it reports). -/
def write_sitemap (manifest : List MRec) (base_url : Str) : List (Str × Str) × Nat :=
  let base := rstripSlash base_url
  let urls := sitemapUrls manifest base_url
  if urls.length ≤ 50000 then
    ([("sitemap.xml".data, render_urlset urls)], 1)
  else
    let cs := chunksOf 50000 urls
    let subs := cs.enum.map (fun p => (smName (p.1 + 1), render_urlset p.2))
    (subs ++ [("sitemap.xml".data, renderIndexDoc base (subs.map Prod.fst))],
     subs.length)

/-! ### Site Assembler (`inject_index`) -/

/-- The supabase script tag `inject_index` searches for. -/
def marker : Str :=
  "<script src=\"https://cdn.jsdelivr.net/npm/@supabase/supabase-js@2\"></script>".data

/-- The bootstrap script `inject_index` inserts (apostrophes written `\x27`). -/
def indexInject : Str :=
  ("<script>window.__STATIC_INDEX__ = true;window.__API_BASE__ = \x27\x27;"
   ++ "window.__MOBILE__ = window.matchMedia(\x27(max-width: 760px)\x27).matches;"
   ++ "document.title = \x27Logodaedaly — English Dictionary for Serious Learners\x27;"
   ++ "</script>\n").data

/-- `inject_index(template)`: `none` models the raised `ValueError` when the
marker is absent; otherwise the bootstrap script is inserted before the first
occurrence of the marker via `template.replace(marker, inject + marker, 1)`. -/
def inject_index (template : Str) : Option Str :=
  if (splitOnFirst marker template).isSome then
    some (pyReplaceFirst marker (indexInject ++ marker) template)
  else none

/-! ### The run as an ordered trace of I/O effects (`main` + `write_site`) -/

/-- One externally visible effect of a run, in program order. -/
inductive Effect where
  | mkdirOut
  | readTemplate
  | queryRows
  | mkdirData
  | writeFile (name : Str)
  | raiseValueError
  | raiseTemplateError
  | printSummary (entries chunks sitemaps : Nat)
deriving DecidableEq

/-- The ordered I/O trace of `main` (with the given template text, database
rows, `--chunk-size` and `--base-url`): `main` creates the output directory,
`write_site` reads the template, queries the rows, creates `data/`, assigns
slugs, chunks (aborting here on `ValueError`), writes the chunk files and
`manifest.json`, injects the index (aborting on a missing marker), writes
`index.html` and `_redirects`, writes the sitemap files, and `main` prints
the summary counts. -/
def exportTrace {α : Type} (template : Str) (rows : List (Row α))
    (chunk_size : Int) (base_url : Str) : List Effect :=
  [Effect.mkdirOut, Effect.readTemplate, Effect.queryRows, Effect.mkdirData] ++
  (let entries := fetch_entries rows
   let enriched := enrichEntries entries
   match writeChunks enriched chunk_size with
   | none => [Effect.raiseValueError]
   | some (files, manifest) =>
     files.map (fun f => Effect.writeFile ("data/".data ++ f.1)) ++
     [Effect.writeFile "manifest.json".data] ++
     (match inject_index template with
      | none => [Effect.raiseTemplateError]
      | some _ =>
        [Effect.writeFile "index.html".data, Effect.writeFile "_redirects".data] ++
        (let sm := write_sitemap manifest base_url
         sm.1.map (fun f => Effect.writeFile f.1) ++
         [Effect.printSummary entries.length files.length sm.2])))

/-! ### Concrete runs used by the claim analyses -/

/-- A template containing the supabase marker between two text blocks. -/
def demoTemplate : Str := "<html>".data ++ marker ++ "</html>".data

/-- One database row for the lemma `run` (opaque columns instantiated at
`Unit`). -/
def demoRow : Row Unit :=
  ⟨(), "run".data, (), (), (), (), (), (), (), (), (), ()⟩

/-- No two adjacent hyphens (the key shape invariant of `squash` output). -/
def noDoubleHyphen (a b : Char) : Prop := ¬(a = '-' ∧ b = '-')

/-- Normal form of `slugify` output: non-empty, only `[a-z0-9-]` characters,
no adjacent hyphens, and no hyphen at either end. -/
def SlugNF (o : Str) : Prop :=
  o ≠ [] ∧ (∀ c ∈ o, isSlugOutChar c = true) ∧
  List.Chain' noDoubleHyphen o ∧
  o.head? ≠ some '-' ∧ o.getLast? ≠ some '-'

instance (a b : Char) : Decidable (noDoubleHyphen a b) :=
  inferInstanceAs (Decidable (¬(a = '-' ∧ b = '-')))

instance decChainNDH : (l : Str) → Decidable (List.Chain' noDoubleHyphen l)
  | [] => isTrue List.chain'_nil
  | [_] => isTrue (List.chain'_singleton _)
  | a :: b :: r =>
    match decChainNDH (b :: r) with
    | isTrue h =>
      if hab : noDoubleHyphen a b then isTrue (List.chain'_cons.mpr ⟨hab, h⟩)
      else isFalse (fun hc => hab (List.chain'_cons.mp hc).1)
    | isFalse h => isFalse (fun hc => h (List.chain'_cons.mp hc).2)

instance (o : Str) : Decidable (SlugNF o) :=
  inferInstanceAs (Decidable (o ≠ [] ∧ (∀ c ∈ o, isSlugOutChar c = true) ∧
    List.Chain' noDoubleHyphen o ∧ o.head? ≠ some '-' ∧ o.getLast? ≠ some '-'))

/-- An adjacent run of rows with one lemma, as a non-empty list (head row
plus tail rows). -/
def runRows {α : Type} (p : Row α × List (Row α)) : List (Row α) := p.1 :: p.2

/-- Rows of the example of claim C8: lemma `run` with sense ids 1 and 2,
then lemma `walk` with sense id 1 (remaining columns instantiated at `Nat`,
value 0). -/
def rowRun1 : Row Nat := ⟨0, "run".data, 0, 0, 0, 0, 0, 0, 1, 0, 0, 0⟩

def rowRun2 : Row Nat := ⟨0, "run".data, 0, 0, 0, 0, 0, 0, 2, 0, 0, 0⟩

def rowWalk : Row Nat := ⟨0, "walk".data, 0, 0, 0, 0, 0, 0, 1, 0, 0, 0⟩

/-- The number of chunks `chunked` produces for `n` items at positive chunk
size `k`: `⌈n / k⌉`. -/
def numChunks (n k : Nat) : Nat := (n + k - 1) / k

/-- Claim C2 as a predicate of the enriched entry list and a positive chunk
size: the chunk writer succeeds; the chunk files are `chunk-0000.json`,
`chunk-0001.json`, … in order, all names of (zero-padded) width 4, i.e.
length 15; the chunk contents partition the entries in order into windows of
at most `k`; the manifest has one record per entry, in entry order, carrying
that entry's lemma and slug; the manifest's `chunk` values are exactly the
chunk file names; and the names in generation order are strictly increasing
in lexicographic order, so concatenating the chunk files in filename order
reproduces the original entry order. -/
def C2Prop {α : Type} (entries : List (EntryRec α × Str)) (k : Nat) : Prop :=
  ∃ files manifest,
    writeChunks entries (k : Int) = some (files, manifest) ∧
    files.map Prod.fst = (List.range (numChunks entries.length k)).map chunkName ∧
    (∀ nm ∈ files.map Prod.fst, nm.length = 15) ∧
    (files.map Prod.snd).flatten = entries ∧
    (∀ c ∈ files.map Prod.snd, c.length ≤ k) ∧
    manifest.length = entries.length ∧
    manifest.map (fun m => (m.lemma_, m.slug)) =
      entries.map (fun e => (e.1.lemma_, e.2)) ∧
    (∀ nm, nm ∈ manifest.map MRec.chunk ↔ nm ∈ files.map Prod.fst) ∧
    List.Pairwise (fun a b => strLtB a b = true) (files.map Prod.fst)

/-- An entry with no text and no senses (opaque columns at `Unit`). -/
def blankEntryU : EntryRec Unit := ⟨[], (), (), (), (), (), (), []⟩

/-- 10001 blank enriched entries: chunked at size 1 they produce 10001 chunk
files, one more than the width-4 naming scheme keeps ordered. -/
def c2DemoEntries : List (EntryRec Unit × Str) :=
  List.replicate 10001 (blankEntryU, ([] : Str))

/-- A manifest record with empty fields. -/
def blankMRec : MRec := ⟨[], [], []⟩

end Logodaedaly

namespace Logodaedaly

/-! ## Claim C1 — slug uniqueness across a run

`ensure_unique_slug` never records the suffixed slug it returns in the
counter map, so a later lemma whose base slug equals an already-issued
suffixed slug receives the same slug again. -/

/-- C1: slug assignment is total but NOT injective: on the run
`["foo", "foo", "foo-2"]` the second `"foo"` is assigned `"foo-2"` and the
lemma `"foo-2"` (base slug `"foo-2"`, never seen as a key) is assigned
`"foo-2"` as well, so the slugs of one run are not pairwise distinct. -/
theorem c1_uniqueness_violated :
    assignSlugs ["foo".data, "foo".data, "foo-2".data] =
      ["foo".data, "foo-2".data, "foo-2".data] ∧
    ¬ (assignSlugs ["foo".data, "foo".data, "foo-2".data]).Nodup := by
  decide

/-! ## Claim C4 — slug collision sequencing on `["Café", "cafe!", "CAFE"]` -/

/-- C4 counterexample: the run `["Café", "cafe!", "CAFE"]` does not produce
`["cafe", "cafe-2", "cafe-3"]`: NFKC keeps `é` composed, so `slugify` turns
`"Café"` into `"caf"`, not `"cafe"`. -/
theorem c4_counterexample :
    assignSlugs ["Café".data, "cafe!".data, "CAFE".data] ≠
      ["cafe".data, "cafe-2".data, "cafe-3".data] := by
  decide

/-- C4 (amended): `["Café", "cafe!", "CAFE"]` yields `["caf", "cafe",
"cafe-2"]` — only the latter two lemmas share the base slug `cafe` — and a
run whose three lemmas all do reduce to base `cafe` is suffixed `-2`, `-3`
in encounter order. -/
theorem c4_amended :
    assignSlugs ["Café".data, "cafe!".data, "CAFE".data] =
      ["caf".data, "cafe".data, "cafe-2".data] ∧
    assignSlugs ["cafe!".data, "CAFE".data, "cafe".data] =
      ["cafe".data, "cafe-2".data, "cafe-3".data] := by
  decide

/-! ## Claim C5 — non-positive chunk size is not rejected at the boundary

`main` parses `--chunk-size` without any validation and the run reaches
`chunked` only after the output directory is created, the template is read,
the database is queried and `data/` is created.  With chunk size `0` the
`range` call inside `chunked` raises `ValueError` at that late point; with a
negative chunk size nothing raises at all: `range(0, n, size)` is empty, so
the run completes, writing no chunk file and an empty manifest while
reporting the entries as exported. -/

/-- C5: the I/O trace of a run over one `run` row.  With `--chunk-size -1`
the run performs every step and ends in the success summary (1 entry, 0
chunks, 1 sitemap) — the misconfiguration is never rejected; with
`--chunk-size 0` the output directory creation, template read, database
query and `data/` creation all happen before the `ValueError` aborts the
run, contradicting rejection before any I/O. -/
theorem c5_not_rejected_at_boundary :
    exportTrace demoTemplate [demoRow] (-1) "https://example.org".data =
      [Effect.mkdirOut, Effect.readTemplate, Effect.queryRows, Effect.mkdirData,
       Effect.writeFile "manifest.json".data,
       Effect.writeFile "index.html".data, Effect.writeFile "_redirects".data,
       Effect.writeFile "sitemap.xml".data, Effect.printSummary 1 0 1] ∧
    exportTrace demoTemplate [demoRow] 0 "https://example.org".data =
      [Effect.mkdirOut, Effect.readTemplate, Effect.queryRows, Effect.mkdirData,
       Effect.raiseValueError] := by
  decide

/-! ## Slug normal form: supporting lemmas for C7 and C10 -/

theorem mem_squashAux {l : Str} {c : Char} :
    ∀ {b : Bool}, c ∈ squashAux b l → isSlugOutChar c = true := by
  induction l with
  | nil => intro b h; simp [squashAux] at h
  | cons d r ih =>
    intro b h
    by_cases hd : isAlnumLower d = true
    · simp [squashAux, hd] at h
      rcases h with rfl | h
      · simp [isSlugOutChar, hd]
      · exact ih h
    · cases b with
      | true => simp [squashAux, hd] at h; exact ih h
      | false =>
        simp [squashAux, hd] at h
        rcases h with rfl | h
        · decide
        · exact ih h

theorem squashAux_true_head {l : Str} {c : Char}
    (h : (squashAux true l).head? = some c) : isAlnumLower c = true := by
  induction l with
  | nil => simp [squashAux] at h
  | cons d r ih =>
    by_cases hd : isAlnumLower d = true
    · simp [squashAux, hd] at h; rwa [← h]
    · simp [squashAux, hd] at h; exact ih h

theorem chain'_squashAux (l : Str) :
    ∀ b : Bool, List.Chain' noDoubleHyphen (squashAux b l) := by
  induction l with
  | nil => intro b; simp [squashAux]
  | cons d r ih =>
    intro b
    by_cases hd : isAlnumLower d = true
    · have hd' : d ≠ '-' := by rintro rfl; exact absurd hd (by decide)
      simp only [squashAux, hd, if_pos]
      exact List.chain'_cons'.mpr ⟨fun _ _ => fun hc => hd' hc.1, ih false⟩
    · cases b with
      | true => simpa [squashAux, hd] using ih true
      | false =>
        simp only [squashAux, hd, if_neg, Bool.false_eq_true, if_false]
        refine List.chain'_cons'.mpr ⟨fun y hy => ?_, ih true⟩
        have := squashAux_true_head hy
        exact fun hc => absurd (hc.2 ▸ this) (by decide)

theorem head?_dropWhile_eq_some {p : Char → Bool} {l : Str} {c : Char}
    (h : (l.dropWhile p).head? = some c) : p c = false := by
  have := List.head?_dropWhile_not p l
  rw [h] at this
  exact this

theorem head?_eq_of_nonempty_start {res m : Str} (h : res <+: m) (hne : res ≠ []) :
    m.head? = res.head? := by
  obtain ⟨u, rfl⟩ := h
  cases res with
  | nil => exact absurd rfl hne
  | cons a t => simp

theorem getLast?_eq_of_suffix {res m : Str} (h : res <:+ m) (hne : res ≠ []) :
    m.getLast? = res.getLast? := by
  obtain ⟨u, rfl⟩ := h
  cases hr : res.getLast? with
  | none => exact absurd (List.getLast?_eq_none_iff.mp hr) hne
  | some x => rw [List.getLast?_append, hr]; rfl

theorem stripEnds_subset {p : Char → Bool} {l : Str} {c : Char}
    (h : c ∈ stripEnds p l) : c ∈ l := by
  unfold stripEnds at h
  rw [List.mem_reverse] at h
  have h1 := (List.dropWhile_sublist p).subset h
  rw [List.mem_reverse] at h1
  exact (List.dropWhile_sublist p).subset h1

theorem chain'_stripEnds {R : Char → Char → Prop}
    {p : Char → Bool} {l : Str} (h : List.Chain' R l) :
    List.Chain' R (stripEnds p l) := by
  unfold stripEnds
  have h1 : List.Chain' R (l.dropWhile p) := h.suffix (List.dropWhile_suffix p)
  have h2 : List.Chain' (flip R) ((l.dropWhile p).reverse) :=
    List.chain'_reverse.mpr h1
  have h3 : List.Chain' (flip R) (((l.dropWhile p).reverse).dropWhile p) :=
    h2.suffix (List.dropWhile_suffix p)
  exact List.chain'_reverse.mpr h3

theorem stripEnds_head? {p : Char → Bool} {l : Str} {c : Char}
    (h : (stripEnds p l).head? = some c) : p c = false := by
  unfold stripEnds at h
  rw [List.head?_reverse] at h
  have hne : ((l.dropWhile p).reverse.dropWhile p) ≠ [] := by
    intro hz; rw [hz] at h; simp at h
  have := getLast?_eq_of_suffix (List.dropWhile_suffix p
    (l := (l.dropWhile p).reverse)) hne
  rw [← this, List.getLast?_reverse] at h
  exact head?_dropWhile_eq_some h

theorem stripEnds_getLast? {p : Char → Bool} {l : Str} {c : Char}
    (h : (stripEnds p l).getLast? = some c) : p c = false := by
  unfold stripEnds at h
  rw [List.getLast?_reverse] at h
  exact head?_dropWhile_eq_some h

theorem dropWhile_eq_self_of_head {p : Char → Bool} {l : Str}
    (h : ∀ c, l.head? = some c → p c = false) : l.dropWhile p = l := by
  cases l with
  | nil => rfl
  | cons a t => rw [List.dropWhile_cons, h a rfl]; simp

theorem stripEnds_eq_self {p : Char → Bool} {l : Str}
    (hh : ∀ c, l.head? = some c → p c = false)
    (hl : ∀ c, l.getLast? = some c → p c = false) : stripEnds p l = l := by
  unfold stripEnds
  rw [dropWhile_eq_self_of_head hh]
  rw [dropWhile_eq_self_of_head (fun c hc => hl c (by rwa [List.head?_reverse] at hc))]
  exact List.reverse_reverse l

theorem slugifyWith_NF (norm : Str → Str) (t : Str) : SlugNF (slugifyWith norm t) := by
  unfold slugifyWith
  by_cases ht : t = []
  · simp only [ht, if_pos]; decide
  · simp only [ht, if_neg, not_false_iff]
    set s := (stripEnds pySpaceChar (norm t)).map pyLowerChar with hs
    by_cases h2 : stripEnds (fun c => c = '-') (squash s) = []
    · simp only [h2, if_pos]; decide
    · simp only [h2, if_neg, not_false_iff]
      refine ⟨h2, ?_, ?_, ?_, ?_⟩
      · intro c hc
        exact mem_squashAux (stripEnds_subset hc)
      · exact chain'_stripEnds (chain'_squashAux s false)
      · intro hc
        have := stripEnds_head? hc
        simp at this
      · intro hc
        have := stripEnds_getLast? hc
        simp at this

theorem slugChar_of_not_alnum {c : Char} (h : isSlugOutChar c = true)
    (hc : ¬ isAlnumLower c = true) : c = '-' := by
  simp [isSlugOutChar, hc] at h
  exact h

theorem squashAux_eq_self :
    ∀ (o : Str) (flag : Bool),
      (∀ c ∈ o, isSlugOutChar c = true) →
      List.Chain' noDoubleHyphen o →
      o.getLast? ≠ some '-' →
      (flag = true → o.head? ≠ some '-') →
      squashAux flag o = o := by
  intro o
  induction o with
  | nil => intro flag _ _ _ _; rfl
  | cons c r ih =>
    intro flag hchars hchain hlast hhead
    have hlast' : r.getLast? ≠ some '-' := by
      cases r with
      | nil => simp
      | cons d r' => rwa [List.getLast?_cons_cons] at hlast
    by_cases hc : isAlnumLower c = true
    · have htail : squashAux false r = r :=
        ih false (fun x hx => hchars x (List.mem_cons_of_mem c hx))
          (List.chain'_cons'.mp hchain).2 hlast' (fun h => nomatch h)
      simp [squashAux, hc, htail]
    · have hc' : c = '-' := slugChar_of_not_alnum (hchars c (by simp)) hc
      subst hc'
      cases flag with
      | true => exact absurd rfl (hhead rfl)
      | false =>
        have hrne : r ≠ [] := by
          rintro rfl; exact hlast rfl
        have hrhead : r.head? ≠ some '-' := by
          intro hd
          have := (List.chain'_cons'.mp hchain).1 '-' (by rw [hd]; rfl)
          exact this ⟨rfl, rfl⟩
        have htail : squashAux true r = r :=
          ih true (fun x hx => hchars x (List.mem_cons_of_mem _ hx))
            (List.chain'_cons'.mp hchain).2 hlast' (fun _ => hrhead)
        simp [squashAux, hc, htail]

theorem pyLowerChar_slug {c : Char} (h : isSlugOutChar c = true) : pyLowerChar c = c := by
  have h' : (('a' ≤ c ∧ c ≤ 'z') ∨ ('0' ≤ c ∧ c ≤ '9')) ∨ c = '-' := by
    simpa [isSlugOutChar, isAlnumLower, Bool.or_eq_true, Bool.and_eq_true,
      decide_eq_true_iff] using h
  rcases h' with (⟨h1, h2⟩ | ⟨h1, h2⟩) | rfl
  · have b1 : 97 ≤ c.toNat := Char.le_def.mp h1
    unfold pyLowerChar Char.toLower
    rw [if_neg (by omega : ¬(c.toNat ≥ 65 ∧ c.toNat ≤ 90))]
  · have b2 : c.toNat ≤ 57 := Char.le_def.mp h2
    unfold pyLowerChar Char.toLower
    rw [if_neg (by omega : ¬(c.toNat ≥ 65 ∧ c.toNat ≤ 90))]
  · decide

theorem slugChar_not_space {c : Char} (h : isSlugOutChar c = true) :
    pySpaceChar c = false := by
  cases hs : pySpaceChar c with
  | false => rfl
  | true =>
    exfalso
    have h' : ((((c = ' ' ∨ c = '\t') ∨ c = '\n') ∨ c = '\x0d') ∨ c = '\x0b') ∨ c = '\x0c' := by
      simpa [pySpaceChar, Bool.or_eq_true, decide_eq_true_iff] using hs
    rcases h' with ((((rfl | rfl) | rfl) | rfl) | rfl) | rfl <;> exact absurd h (by decide)

theorem map_eq_self_of_fixed {f : Char → Char} :
    ∀ {l : Str}, (∀ c ∈ l, f c = c) → l.map f = l := by
  intro l
  induction l with
  | nil => intro _; rfl
  | cons a t ih =>
    intro h
    rw [List.map_cons, h a (by simp), ih (fun c hc => h c (List.mem_cons_of_mem a hc))]

theorem slugifyWith_fixed (norm : Str → Str) (o : Str) (hnorm : norm o = o)
    (h : SlugNF o) : slugifyWith norm o = o := by
  obtain ⟨hne, hchars, hchain, hhead, hlast⟩ := h
  have e0 : stripEnds pySpaceChar o = o :=
    stripEnds_eq_self
      (fun c hc => slugChar_not_space (hchars c (List.mem_of_mem_head? (by rw [hc]; rfl))))
      (fun c hc => slugChar_not_space (hchars c (List.mem_of_mem_getLast? (by rw [hc]; rfl))))
  have e1 : o.map pyLowerChar = o :=
    map_eq_self_of_fixed (fun c hc => pyLowerChar_slug (hchars c hc))
  have e2 : squash o = o :=
    squashAux_eq_self o false hchars hchain hlast (fun h => nomatch h)
  have e3 : stripEnds (fun c => c = '-') o = o :=
    stripEnds_eq_self
      (fun c hc => by
        have : c ≠ '-' := fun e => hhead (e ▸ hc)
        simpa using this)
      (fun c hc => by
        have : c ≠ '-' := fun e => hlast (e ▸ hc)
        simpa using this)
  unfold slugifyWith squash at *
  rw [if_neg hne, hnorm]
  simp only [e0, e1, e2, e3, if_neg hne]

/-! ## Claim C7 — slug totality, character safety and the `untitled` fallback -/

/-- C7: for every normaliser and every input string the produced slug is
non-empty and drawn from `[a-z0-9-]`; the lemmas `""` and `"!!!"` both yield
`"untitled"`, and a run containing both assigns `"untitled"` then
`"untitled-2"`. -/
theorem c7_slug_total_and_safe :
    (∀ (norm : Str → Str) (text : Str),
        slugifyWith norm text ≠ [] ∧
        ∀ c ∈ slugifyWith norm text, isSlugOutChar c = true) ∧
    slugify "".data = "untitled".data ∧
    slugify "!!!".data = "untitled".data ∧
    assignSlugs ["".data, "!!!".data] = ["untitled".data, "untitled-2".data] := by
  refine ⟨fun norm text => ?_, by decide, by decide, by decide⟩
  have h := slugifyWith_NF norm text
  exact ⟨h.1, h.2.1⟩

/-- Witness for C7 at the concrete lemma `"abc"` and character `'c'`. -/
theorem c7_witness :
    slugify "abc".data ≠ [] ∧ isSlugOutChar 'c' = true :=
  ⟨(c7_slug_total_and_safe.1 nfkc "abc".data).1,
   (c7_slug_total_and_safe.1 nfkc "abc".data).2 'c' (by decide)⟩

/-! ## Claim C10 — `slugify` is idempotent -/

/-- C10: for any normaliser fixing `[a-z0-9-]` strings (as NFKC does, such
strings being NFKC-normal), `slugifyWith norm` is idempotent; in particular
`slugify (slugify s) = slugify s` for every `s`, so any already-produced
slug — including the fallback `"untitled"` — passes through unchanged. -/
theorem c10_slugify_idempotent :
    (∀ (norm : Str → Str),
        (∀ t, (∀ c ∈ t, isSlugOutChar c = true) → norm t = t) →
        ∀ s, slugifyWith norm (slugifyWith norm s) = slugifyWith norm s) ∧
    ∀ s, slugify (slugify s) = slugify s := by
  have main : ∀ (norm : Str → Str),
      (∀ t, (∀ c ∈ t, isSlugOutChar c = true) → norm t = t) →
      ∀ s, slugifyWith norm (slugifyWith norm s) = slugifyWith norm s := by
    intro norm hnorm s
    have h := slugifyWith_NF norm s
    exact slugifyWith_fixed norm _ (hnorm _ h.2.1) h
  exact ⟨main, fun s => main nfkc (fun _ _ => rfl) s⟩

/-- Witness for C10 at a concrete messy lemma and at a fallback-producing
lemma, discharging the normaliser hypothesis with `nfkc`. -/
theorem c10_witness :
    slugify (slugify "  Hello, World!  ".data) = slugify "  Hello, World!  ".data ∧
    slugify (slugify "!!!".data) = slugify "!!!".data :=
  ⟨c10_slugify_idempotent.1 nfkc (fun _ _ => rfl) "  Hello, World!  ".data,
   c10_slugify_idempotent.1 nfkc (fun _ _ => rfl) "!!!".data⟩

/-! ## Substring search: supporting lemmas for C6 -/

theorem startsWith_iff : ∀ (p l : Str), startsWith p l = true ↔ ∃ t, p ++ t = l := by
  intro p
  induction p with
  | nil => intro l; simp [startsWith]
  | cons a as ih =>
    intro l
    cases l with
    | nil => simp [startsWith]
    | cons b bs =>
      rw [startsWith, Bool.and_eq_true, beq_iff_eq, ih bs]
      constructor
      · rintro ⟨rfl, t, rfl⟩; exact ⟨t, rfl⟩
      · rintro ⟨t, ht⟩
        rw [List.cons_append] at ht
        injection ht with h1 h2
        exact ⟨h1, t, h2⟩

theorem splitOnFirst_some {p : Str} :
    ∀ {l b a : Str}, splitOnFirst p l = some (b, a) → l = b ++ p ++ a := by
  intro l
  induction l with
  | nil =>
    intro b a h
    rw [splitOnFirst] at h
    by_cases hs : startsWith p [] = true
    · obtain ⟨t, ht⟩ := (startsWith_iff p []).mp hs
      rw [if_pos hs] at h
      injection h with h'
      injection h' with hb ha
      subst hb; subst ha
      obtain ⟨hp, -⟩ := List.append_eq_nil.mp ht
      rw [hp]; rfl
    · rw [if_neg hs] at h; exact absurd h (by simp)
  | cons c r ih =>
    intro b a h
    rw [splitOnFirst] at h
    by_cases hs : startsWith p (c :: r) = true
    · obtain ⟨t, ht⟩ := (startsWith_iff p (c :: r)).mp hs
      rw [if_pos hs] at h
      injection h with h'
      injection h' with hb ha
      subst hb
      rw [← ht, List.drop_left] at ha
      subst ha
      simpa using ht.symm
    · rw [if_neg hs] at h
      cases hr : splitOnFirst p r with
      | none => rw [hr] at h; exact absurd h (by simp)
      | some q =>
        rw [hr] at h
        injection h with h'
        obtain ⟨b0, a0⟩ := q
        injection h' with hb ha
        subst hb; subst ha
        simpa using ih hr

theorem splitOnFirst_none {p : Str} :
    ∀ {l : Str}, splitOnFirst p l = none → ∀ b a : Str, l ≠ b ++ p ++ a := by
  intro l
  induction l with
  | nil =>
    intro h b a he
    rw [splitOnFirst] at h
    have hb : b = [] := by
      cases b with
      | nil => rfl
      | cons x xs => exact absurd he.symm (by simp)
    subst hb
    have hp : p = [] := by
      cases p with
      | nil => rfl
      | cons x xs => exact absurd he.symm (by simp)
    subst hp
    simp [startsWith] at h
  | cons c r ih =>
    intro h b a he
    rw [splitOnFirst] at h
    by_cases hs : startsWith p (c :: r) = true
    · rw [if_pos hs] at h; exact absurd h (by simp)
    · rw [if_neg hs] at h
      cases b with
      | nil =>
        simp only [List.nil_append] at he
        exact hs ((startsWith_iff p (c :: r)).mpr ⟨a, he.symm⟩)
      | cons x b' =>
        rw [List.cons_append, List.cons_append] at he
        injection he with h1 h2
        cases hr : splitOnFirst p r with
        | none => exact ih hr b' a h2
        | some q => rw [hr] at h; exact absurd h (by simp)

theorem splitOnFirst_min {p : Str} :
    ∀ {l b a : Str}, splitOnFirst p l = some (b, a) →
      ∀ b' a' : Str, l = b' ++ p ++ a' → b.length ≤ b'.length := by
  intro l
  induction l with
  | nil =>
    intro b a h b' a' _
    rw [splitOnFirst] at h
    by_cases hs : startsWith p [] = true
    · rw [if_pos hs] at h
      injection h with h'
      injection h' with hb _
      subst hb
      simp
    · rw [if_neg hs] at h; exact absurd h (by simp)
  | cons c r ih =>
    intro b a h b' a' he
    rw [splitOnFirst] at h
    by_cases hs : startsWith p (c :: r) = true
    · rw [if_pos hs] at h
      injection h with h'
      injection h' with hb _
      subst hb
      simp
    · rw [if_neg hs] at h
      cases hr : splitOnFirst p r with
      | none => rw [hr] at h; exact absurd h (by simp)
      | some q =>
        rw [hr] at h
        injection h with h'
        obtain ⟨b0, a0⟩ := q
        injection h' with hb _
        subst hb
        cases b' with
        | nil =>
          simp only [List.nil_append] at he
          exact absurd ((startsWith_iff p (c :: r)).mpr ⟨a', he.symm⟩) hs
        | cons x b'' =>
          rw [List.cons_append, List.cons_append] at he
          injection he with _ h2
          simpa using Nat.succ_le_succ (ih hr b'' a' h2)

/-! ## Claim C6 — index-page injection fails exactly when the marker is
absent, and otherwise inserts the bootstrap before the first marker -/

/-- C6: `inject_index` raises (returns `none`) precisely when the supabase
marker does not occur in the template; when the marker does occur, with
first occurrence `pre ++ marker ++ post` (minimality of `pre` included), the
result is the template with the bootstrap script inserted immediately before
that occurrence and all other text unchanged. -/
theorem c6_inject_index (t : Str) :
    (inject_index t = none ↔ ∀ pre post : Str, t ≠ pre ++ marker ++ post) ∧
    (∀ pre post : Str, splitOnFirst marker t = some (pre, post) →
      t = pre ++ marker ++ post ∧
      inject_index t = some (pre ++ indexInject ++ marker ++ post) ∧
      ∀ pre' post' : Str, t = pre' ++ marker ++ post' → pre.length ≤ pre'.length) := by
  constructor
  · constructor
    · intro h pre post
      unfold inject_index at h
      cases hr : splitOnFirst marker t with
      | none => exact splitOnFirst_none hr pre post
      | some q => rw [hr] at h; simp at h
    · intro h
      unfold inject_index
      cases hr : splitOnFirst marker t with
      | none => simp [hr]
      | some q =>
        obtain ⟨b, a⟩ := q
        exact absurd (splitOnFirst_some hr) (h b a)
  · intro pre post h
    refine ⟨splitOnFirst_some h, ?_, fun pre' post' he => splitOnFirst_min h pre' post' he⟩
    unfold inject_index pyReplaceFirst
    rw [h]
    simp [h, List.append_assoc]

/-- Witness for C6: on a small template containing the marker between two
text blocks the injection inserts the bootstrap right before the marker. -/
theorem c6_witness :
    demoTemplate = "<html>".data ++ marker ++ "</html>".data ∧
    inject_index demoTemplate =
      some ("<html>".data ++ indexInject ++ marker ++ "</html>".data) := by
  have h : splitOnFirst marker demoTemplate = some ("<html>".data, "</html>".data) := by
    decide
  have h2 := (c6_inject_index demoTemplate).2 "<html>".data "</html>".data h
  exact ⟨h2.1, h2.2.1⟩

/-! ## Row aggregation: supporting lemmas for C8 -/

theorem map_if_neg_of_ne {α : Type} {r : Row α} {l : List (Str × EntryRec α)}
    (h : ∀ q ∈ l, q.1 ≠ r.lemma_) :
    l.map (fun p => if p.1 = r.lemma_ then (p.1, addSense p.2 (senseOfRow r)) else p)
      = l := by
  induction l with
  | nil => rfl
  | cons a t ih =>
    rw [List.map_cons, if_neg (h a (by simp)), ih (fun q hq => h q (by simp [hq]))]

theorem insertRow_new {α : Type} {acc : List (Str × EntryRec α)} {r : Row α}
    (h : ∀ q ∈ acc, q.1 ≠ r.lemma_) :
    insertRow acc r = acc ++ [(r.lemma_, addSense (freshEntry r) (senseOfRow r))] := by
  have hany : acc.any (fun p => p.1 = r.lemma_) = false := by
    rw [List.any_eq_false]
    intro p hp
    simpa using h p hp
  unfold insertRow
  rw [hany]
  simp only [Bool.false_eq_true, if_false, List.map_append]
  congr 1
  · exact map_if_neg_of_ne h
  · simp

theorem insertRow_mem {α : Type} {pre post : List (Str × EntryRec α)}
    {e : EntryRec α} {r : Row α}
    (hpre : ∀ q ∈ pre, q.1 ≠ r.lemma_) (hpost : ∀ q ∈ post, q.1 ≠ r.lemma_) :
    insertRow (pre ++ (r.lemma_, e) :: post) r =
      pre ++ (r.lemma_, addSense e (senseOfRow r)) :: post := by
  have hany : (pre ++ (r.lemma_, e) :: post).any (fun p => p.1 = r.lemma_) = true := by
    rw [List.any_eq_true]
    exact ⟨(r.lemma_, e), by simp, by simp⟩
  unfold insertRow
  rw [hany]
  simp only [if_true, List.map_append, List.map_cons, if_pos rfl]
  rw [map_if_neg_of_ne hpre, map_if_neg_of_ne hpost]

theorem foldl_insertRow_run {α : Type} (ℓ : Str) :
    ∀ (t : List (Row α)) (pre post : List (Str × EntryRec α)) (e : EntryRec α),
      (∀ r ∈ t, r.lemma_ = ℓ) →
      (∀ q ∈ pre, q.1 ≠ ℓ) → (∀ q ∈ post, q.1 ≠ ℓ) →
      List.foldl insertRow (pre ++ (ℓ, e) :: post) t =
        pre ++ (ℓ, { e with senses := e.senses ++ t.map senseOfRow }) :: post := by
  intro t
  induction t with
  | nil => intro pre post e _ _ _; simp
  | cons r t ih =>
    intro pre post e hconst hpre hpost
    have hr : r.lemma_ = ℓ := hconst r (by simp)
    rw [List.foldl_cons]
    rw [show (ℓ, e) = (r.lemma_, e) by rw [hr]]
    rw [insertRow_mem (hr ▸ hpre) (hr ▸ hpost)]
    rw [show (r.lemma_, addSense e (senseOfRow r)) = (ℓ, addSense e (senseOfRow r)) by
      rw [hr]]
    rw [ih pre post _ (fun x hx => hconst x (by simp [hx])) hpre hpost]
    simp [addSense, List.append_assoc]

theorem foldl_insertRow_runs {α : Type} :
    ∀ (runs : List (Row α × List (Row α))) (acc : List (Str × EntryRec α)),
      (∀ p ∈ runs, ∀ r ∈ p.2, r.lemma_ = p.1.lemma_) →
      runs.Pairwise (fun p q => p.1.lemma_ ≠ q.1.lemma_) →
      (∀ p ∈ runs, ∀ q ∈ acc, q.1 ≠ p.1.lemma_) →
      List.foldl insertRow acc ((runs.map runRows).flatten) =
        acc ++ runs.map (fun p => (p.1.lemma_, entryOfRun p.1 p.2)) := by
  intro runs
  induction runs with
  | nil => intro acc _ _ _; simp
  | cons p runs ih =>
    intro acc hconst hdist hacc
    rw [List.map_cons, List.flatten_cons, List.foldl_append]
    have hstep : List.foldl insertRow acc (runRows p) =
        acc ++ [(p.1.lemma_, entryOfRun p.1 p.2)] := by
      unfold runRows
      rw [List.foldl_cons]
      rw [insertRow_new (fun q hq => hacc p (by simp) q hq)]
      rw [foldl_insertRow_run p.1.lemma_ p.2 acc []
        (addSense (freshEntry p.1) (senseOfRow p.1))
        (fun r hr => hconst p (by simp) r hr)
        (fun q hq => hacc p (by simp) q hq) (by simp)]
      simp [entryOfRun, addSense, freshEntry]
    rw [hstep]
    rw [ih (acc ++ [(p.1.lemma_, entryOfRun p.1 p.2)])
      (fun q hq r hr => hconst q (by simp [hq]) r hr)
      (List.pairwise_cons.mp hdist).2 ?_]
    · simp
    · intro q hq x hx
      rcases List.mem_append.mp hx with hx1 | hx2
      · exact hacc q (by simp [hq]) x hx1
      · have : x = (p.1.lemma_, entryOfRun p.1 p.2) := by simpa using hx2
        rw [this]
        exact (List.pairwise_cons.mp hdist).1 q hq

/-! ## Claim C8 — row aggregation groups adjacent same-lemma rows -/

/-- C8: for any sequence of rows that is a concatenation of adjacent
same-lemma runs with pairwise-distinct lemmas across runs (each run given as
head row plus tail rows), `fetch_entries` produces exactly one entry per
run, in first-seen order, with the entry-level fields taken from the run's
first row and the senses being all the run's rows in row order. -/
theorem c8_aggregation {α : Type} (runs : List (Row α × List (Row α)))
    (hconst : ∀ p ∈ runs, ∀ r ∈ p.2, r.lemma_ = p.1.lemma_)
    (hdist : runs.Pairwise (fun p q => p.1.lemma_ ≠ q.1.lemma_)) :
    fetch_entries ((runs.map runRows).flatten) =
      runs.map (fun p => entryOfRun p.1 p.2) := by
  unfold fetch_entries
  rw [foldl_insertRow_runs runs [] hconst hdist (by simp)]
  simp

/-- Witness for C8 at the rows of the claim's example: `run` senses 1 and 2,
then `walk` sense 1, aggregate to the two expected entries. -/
theorem c8_witness :
    fetch_entries [rowRun1, rowRun2, rowWalk] =
      [⟨"run".data, 0, 0, 0, 0, 0, 0, [⟨1, 0, 0, 0⟩, ⟨2, 0, 0, 0⟩]⟩,
       ⟨"walk".data, 0, 0, 0, 0, 0, 0, [⟨1, 0, 0, 0⟩]⟩] := by
  have h := c8_aggregation [(rowRun1, [rowRun2]), (rowWalk, [])]
    (by decide) (by decide)
  simpa [runRows, entryOfRun, freshEntry, senseOfRow, rowRun1, rowRun2, rowWalk] using h

/-! ## Decimal formatting and filename order: supporting lemmas for C2 -/

theorem digitsAux_small (fuel n : Nat) (acc : Str) (h : n < 10) :
    digitsAux (fuel + 1) n acc = digitChar n :: acc := by
  simp [digitsAux, Nat.mod_eq_of_lt h, Nat.div_eq_of_lt h]

theorem digitsAux_step (fuel n : Nat) (acc : Str) (h : 10 ≤ n) :
    digitsAux (fuel + 1) n acc = digitsAux fuel (n / 10) (digitChar (n % 10) :: acc) := by
  have hd : ¬ (n / 10 = 0) := by omega
  simp [digitsAux, hd]

theorem digitsAux_small' (fuel n : Nat) (acc : Str) (hf : 1 ≤ fuel) (h : n < 10) :
    digitsAux fuel n acc = digitChar n :: acc := by
  obtain ⟨f, rfl⟩ : ∃ f, fuel = f + 1 := ⟨fuel - 1, by omega⟩
  exact digitsAux_small f n acc h

theorem digitsAux_step' (fuel n : Nat) (acc : Str) (hf : 1 ≤ fuel) (h : 10 ≤ n) :
    digitsAux fuel n acc = digitsAux (fuel - 1) (n / 10) (digitChar (n % 10) :: acc) := by
  obtain ⟨f, rfl⟩ : ∃ f, fuel = f + 1 := ⟨fuel - 1, by omega⟩
  simpa using digitsAux_step f n acc h

theorem pyStr_eq_1 {n : Nat} (h : n < 10) : pyStr n = [digitChar n] :=
  digitsAux_small n n [] h

theorem pyStr_eq_2 {n : Nat} (h1 : 10 ≤ n) (h2 : n < 100) :
    pyStr n = [digitChar (n / 10), digitChar (n % 10)] := by
  unfold pyStr
  rw [digitsAux_step n n [] h1]
  rw [digitsAux_small' n (n / 10) _ (by omega) (by omega)]

theorem pyStr_eq_3 {n : Nat} (h1 : 100 ≤ n) (h2 : n < 1000) :
    pyStr n = [digitChar (n / 100), digitChar (n / 10 % 10), digitChar (n % 10)] := by
  unfold pyStr
  rw [digitsAux_step n n [] (by omega)]
  rw [digitsAux_step' n (n / 10) _ (by omega) (by omega)]
  rw [digitsAux_small' (n - 1) (n / 10 / 10) _ (by omega) (by omega)]
  rw [Nat.div_div_eq_div_mul]

theorem pyStr_eq_4 {n : Nat} (h1 : 1000 ≤ n) (h2 : n < 10000) :
    pyStr n = [digitChar (n / 1000), digitChar (n / 100 % 10),
      digitChar (n / 10 % 10), digitChar (n % 10)] := by
  unfold pyStr
  rw [digitsAux_step n n [] (by omega)]
  rw [digitsAux_step' n (n / 10) _ (by omega) (by omega)]
  rw [digitsAux_step' (n - 1) (n / 10 / 10) _ (by omega) (by omega)]
  rw [digitsAux_small' (n - 1 - 1) (n / 10 / 10 / 10) _ (by omega) (by omega)]
  rw [Nat.div_div_eq_div_mul, Nat.div_div_eq_div_mul, Nat.div_div_eq_div_mul]

theorem pyFormat04d_eq {n : Nat} (h : n ≤ 9999) :
    pyFormat04d n = [digitChar (n / 1000), digitChar (n / 100 % 10),
      digitChar (n / 10 % 10), digitChar (n % 10)] := by
  by_cases h1 : n < 10
  · rw [pyFormat04d, pyStr_eq_1 h1,
      show n / 1000 = 0 by omega, show n / 100 % 10 = 0 by omega,
      show n / 10 % 10 = 0 by omega, show n % 10 = n by omega]
    rfl
  · by_cases h2 : n < 100
    · rw [pyFormat04d, pyStr_eq_2 (by omega) h2,
        show n / 1000 = 0 by omega, show n / 100 % 10 = 0 by omega,
        show n / 10 % 10 = n / 10 by omega]
      rfl
    · by_cases h3 : n < 1000
      · rw [pyFormat04d, pyStr_eq_3 (by omega) h3,
          show n / 1000 = 0 by omega, show n / 100 % 10 = n / 100 by omega]
        rfl
      · rw [pyFormat04d, pyStr_eq_4 (by omega) (by omega)]
        rfl

theorem digitChar_lt :
    ∀ a : Nat, a < 10 → ∀ b : Nat, b < 10 → a < b → digitChar a < digitChar b := by
  decide

theorem strLtB_cons_lt {a b : Char} {as bs : Str} (h : a < b) :
    strLtB (a :: as) (b :: bs) = true := by
  simp [strLtB, h]

theorem strLtB_cons_self {c : Char} {as bs : Str} :
    strLtB (c :: as) (c :: bs) = strLtB as bs := by
  simp [strLtB, lt_irrefl]

theorem strLtB_append_same (p : Str) (as bs : Str) :
    strLtB (p ++ as) (p ++ bs) = strLtB as bs := by
  induction p with
  | nil => rfl
  | cons c t ih => rw [List.cons_append, List.cons_append, strLtB_cons_self]; exact ih

theorem strLtB_append_of_eq_length :
    ∀ {as bs : Str}, as.length = bs.length → strLtB as bs = true →
      ∀ u v : Str, strLtB (as ++ u) (bs ++ v) = true := by
  intro as
  induction as with
  | nil =>
    intro bs hlen h _ _
    cases bs with
    | nil => simp [strLtB] at h
    | cons b bs' => simp at hlen
  | cons a as' ih =>
    intro bs hlen h u v
    cases bs with
    | nil => simp at hlen
    | cons b bs' =>
      rw [List.cons_append, List.cons_append]
      by_cases hab : a < b
      · exact strLtB_cons_lt hab
      · by_cases hba : b < a
        · rw [strLtB, if_neg hab, if_pos hba] at h
          exact absurd h (by simp)
        · rw [strLtB, if_neg hab, if_neg hba] at h ⊢
          exact ih (by simpa using hlen) h u v

theorem pyFormat04d_lt {i j : Nat} (hij : i < j) (hj : j ≤ 9999) :
    strLtB (pyFormat04d i) (pyFormat04d j) = true := by
  rw [pyFormat04d_eq (show i ≤ 9999 by omega), pyFormat04d_eq hj]
  rcases Nat.lt_trichotomy (i / 1000) (j / 1000) with h1 | h1 | h1
  · exact strLtB_cons_lt (digitChar_lt _ (by omega) _ (by omega) h1)
  · rw [h1, strLtB_cons_self]
    rcases Nat.lt_trichotomy (i / 100 % 10) (j / 100 % 10) with h2 | h2 | h2
    · exact strLtB_cons_lt (digitChar_lt _ (by omega) _ (by omega) h2)
    · rw [h2, strLtB_cons_self]
      rcases Nat.lt_trichotomy (i / 10 % 10) (j / 10 % 10) with h3 | h3 | h3
      · exact strLtB_cons_lt (digitChar_lt _ (by omega) _ (by omega) h3)
      · rw [h3, strLtB_cons_self]
        exact strLtB_cons_lt (digitChar_lt _ (by omega) _ (by omega) (by omega))
      · exact absurd h3 (by omega)
    · exact absurd h2 (by omega)
  · exact absurd h1 (by omega)

theorem chunkName_lt {i j : Nat} (hij : i < j) (hj : j ≤ 9999) :
    strLtB (chunkName i) (chunkName j) = true := by
  unfold chunkName
  rw [List.append_assoc, List.append_assoc, strLtB_append_same]
  refine strLtB_append_of_eq_length ?_ (pyFormat04d_lt hij hj) _ _
  rw [pyFormat04d_eq (show i ≤ 9999 by omega), pyFormat04d_eq hj]
  simp

theorem chunkName_length {i : Nat} (h : i ≤ 9999) : (chunkName i).length = 15 := by
  unfold chunkName
  simp [pyFormat04d_eq h]

/-! ## Chunk partition facts -/

theorem zip_self_map {α β : Type} (g : α → β) :
    ∀ l : List α, l.zip (l.map g) = l.map (fun a => (a, g a)) := by
  intro l
  induction l with
  | nil => rfl
  | cons a t ih => simp [ih]

theorem enum_map_range {β : Type} (n : Nat) (g : Nat → β) :
    ((List.range n).map g).enum = (List.range n).map (fun i => (i, g i)) := by
  rw [List.enum_eq_zip_range, List.length_map, List.length_range, zip_self_map]

theorem numChunks_eq {n k : Nat} (hk : 1 ≤ k) (hn : 1 ≤ n) :
    numChunks n k = (n - 1) / k + 1 := by
  unfold numChunks
  rw [show n + k - 1 = (n - 1) + k by omega, Nat.add_div_right _ (by omega)]

theorem numChunks_mul_ge (n k : Nat) (hk : 1 ≤ k) : n ≤ numChunks n k * k := by
  by_cases hn : n = 0
  · simp [hn]
  · rw [numChunks_eq hk (by omega)]
    have h := Nat.lt_mul_div_succ (n - 1) (show 0 < k by omega)
    rw [Nat.mul_comm] at h
    have h2 : n - 1 + 1 ≤ ((n - 1) / k + 1) * k := h
    rwa [show n - 1 + 1 = n by omega] at h2

theorem mul_lt_of_lt_numChunks {n k i : Nat} (hk : 1 ≤ k) (hi : i < numChunks n k) :
    i * k < n := by
  by_cases hn : n = 0
  · subst hn
    unfold numChunks at hi
    rw [show 0 + k - 1 = k - 1 by omega, Nat.div_eq_of_lt (by omega)] at hi
    exact absurd hi (by omega)
  · rw [numChunks_eq hk (by omega)] at hi
    have h1 : i ≤ (n - 1) / k := by omega
    have h2 : i * k ≤ n - 1 := (Nat.le_div_iff_mul_le (by omega)).mp h1
    omega

theorem window_ne_nil {α : Type} {l : List α} {k i : Nat} (hk : 1 ≤ k)
    (hi : i < numChunks l.length k) : (l.drop (i * k)).take k ≠ [] := by
  have h := mul_lt_of_lt_numChunks hk hi
  intro hz
  have hlen := congrArg List.length hz
  rw [List.length_take, List.length_drop] at hlen
  simp only [List.length_nil] at hlen
  omega

theorem flatten_window_take {α : Type} (l : List α) (k : Nat) :
    ∀ m : Nat,
      ((List.range m).map (fun i => (l.drop (i * k)).take k)).flatten = l.take (m * k) := by
  intro m
  induction m with
  | zero => simp
  | succ m ih =>
    rw [List.range_succ, List.map_append, List.flatten_append, ih]
    simp only [List.map_cons, List.map_nil, List.flatten_cons, List.flatten_nil,
      List.append_nil]
    rw [← List.take_add, Nat.succ_mul]

theorem chunksOf_flatten {α : Type} (l : List α) (k : Nat) (hk : 1 ≤ k) :
    (chunksOf k l).flatten = l := by
  unfold chunksOf
  rw [show (l.length + k - 1) / k = numChunks l.length k from rfl]
  rw [flatten_window_take]
  exact List.take_of_length_le (numChunks_mul_ge l.length k hk)

theorem writeChunks_eq {α : Type} (entries : List (EntryRec α × Str)) (k : Nat)
    (hk : 1 ≤ k) :
    writeChunks entries (k : Int) =
      some (
        (List.range (numChunks entries.length k)).map
          (fun i => (chunkName i, (entries.drop (i * k)).take k)),
        ((List.range (numChunks entries.length k)).map
          (fun i => ((entries.drop (i * k)).take k).map
            (fun e => MRec.mk e.1.lemma_ e.2 (chunkName i)))).flatten) := by
  have h0 : ¬((k : Int) = 0) := by exact_mod_cast (show ¬(k = 0) by omega)
  have h1 : (0 : Int) < (k : Int) := by exact_mod_cast (show 0 < k by omega)
  unfold writeChunks chunkedPy
  rw [if_neg h0, if_pos h1, Int.toNat_ofNat]
  unfold chunksOf
  rw [show (entries.length + k - 1) / k = numChunks entries.length k from rfl]
  simp only [Option.map_some']
  rw [enum_map_range, List.map_map, List.map_map]
  rfl

/-! ## Claim C2 — chunk/manifest correspondence -/

/-- C2 counterexample: with 10001 entries and chunk size 1 the chunk writer
produces 10001 chunks; chunk 10000 is named `chunk-10000.json` (length 16,
not the width-4 scheme's 15), and that name sorts lexicographically before
`chunk-9999.json`, so the claim's conjunction fails as stated. -/
theorem c2_counterexample : ¬ C2Prop c2DemoEntries 1 := by
  intro h
  obtain ⟨files, manifest, -, hnames, hlen, -, -, -, -, -, -⟩ := h
  have hn : c2DemoEntries.length = 10001 := by
    unfold c2DemoEntries
    rw [List.length_replicate]
  have hmem : chunkName 10000 ∈ files.map Prod.fst := by
    rw [hnames, hn]
    exact List.mem_map_of_mem _ (List.mem_range.mpr (by decide))
  exact absurd (hlen _ hmem) (by decide)

/-- Pushing a map through the flattened per-window maps of the chunk loop. -/
theorem flatten_map_map {α β γ : Type} (n : Nat) (w : Nat → List α)
    (f : Nat → α → β) (g : β → γ) :
    (((List.range n).map (fun i => (w i).map (f i))).flatten).map g =
      ((List.range n).map (fun i => (w i).map (fun a => g (f i a)))).flatten := by
  rw [List.map_flatten, List.map_map]
  congr 1
  apply List.map_congr_left
  intro i _
  simp [List.map_map, Function.comp_def]

/-- Mapping a function over every window and flattening is mapping it over
the whole list. -/
theorem flatten_window_map {α β : Type} (entries : List α) (k : Nat) (hk : 1 ≤ k)
    (g : α → β) :
    ((List.range (numChunks entries.length k)).map
       (fun i => ((entries.drop (i * k)).take k).map g)).flatten = entries.map g := by
  have h1 : (List.range (numChunks entries.length k)).map
      (fun i => ((entries.drop (i * k)).take k).map g) =
      ((List.range (numChunks entries.length k)).map
        (fun i => (entries.drop (i * k)).take k)).map (List.map g) := by
    rw [List.map_map]
    rfl
  rw [h1, ← List.map_flatten]
  congr 1
  exact chunksOf_flatten entries k hk

/-- C2 (amended): the chunk/manifest correspondence as claimed — width-4
names in generation order, order-preserving partition into windows of at
most `k`, one manifest record per entry in order, `chunk` values exactly the
file names, and filename order agreeing with generation order — holds for
every entry list and chunk size `k ≥ 1` producing at most 10000 chunks
(beyond 10000 chunks the `%04d` padding grows and filename order diverges
from generation order). -/
theorem c2_chunk_manifest (α : Type) (entries : List (EntryRec α × Str)) (k : Nat)
    (hk : 1 ≤ k) (hbound : numChunks entries.length k ≤ 10000) :
    C2Prop entries k := by
  have hnames : (((List.range (numChunks entries.length k)).map
      (fun i => (chunkName i, (entries.drop (i * k)).take k))).map Prod.fst)
      = (List.range (numChunks entries.length k)).map chunkName := by
    rw [List.map_map]
    rfl
  have hpair : ((((List.range (numChunks entries.length k)).map
      (fun i => ((entries.drop (i * k)).take k).map
        (fun e => MRec.mk e.1.lemma_ e.2 (chunkName i)))).flatten).map
          (fun m => (m.lemma_, m.slug)))
      = entries.map (fun e => (e.1.lemma_, e.2)) := by
    rw [flatten_map_map]
    exact flatten_window_map entries k hk (fun e => (e.1.lemma_, e.2))
  refine ⟨_, _, writeChunks_eq entries k hk, hnames, ?_, ?_, ?_, ?_, hpair, ?_, ?_⟩
  · intro nm hnm
    rw [hnames] at hnm
    obtain ⟨i, hi, rfl⟩ := List.mem_map.mp hnm
    have hb : i ≤ 9999 := by
      have := List.mem_range.mp hi
      omega
    exact chunkName_length hb
  · rw [List.map_map]
    exact chunksOf_flatten entries k hk
  · intro c hc
    rw [List.map_map] at hc
    obtain ⟨i, -, rfl⟩ := List.mem_map.mp hc
    show ((entries.drop (i * k)).take k).length ≤ k
    rw [List.length_take]
    exact Nat.min_le_left _ _
  · have := congrArg List.length hpair
    rwa [List.length_map, List.length_map] at this
  · intro nm
    rw [flatten_map_map, hnames]
    constructor
    · intro h
      rw [List.mem_flatten] at h
      obtain ⟨blk, hblk, hnm⟩ := h
      obtain ⟨i, hi, rfl⟩ := List.mem_map.mp hblk
      obtain ⟨e, -, hval⟩ := List.mem_map.mp hnm
      rw [← hval]
      exact List.mem_map_of_mem _ hi
    · intro h
      obtain ⟨i, hi, rfl⟩ := List.mem_map.mp h
      rw [List.mem_flatten]
      refine ⟨_, List.mem_map_of_mem _ hi, ?_⟩
      have hne := window_ne_nil (l := entries) hk (List.mem_range.mp hi)
      obtain ⟨e, he⟩ := List.exists_mem_of_ne_nil _ hne
      exact List.mem_map.mpr ⟨e, he, rfl⟩
  · rw [hnames, List.pairwise_map]
    have hpw := List.pairwise_lt_range (numChunks entries.length k)
    refine hpw.imp_of_mem ?_
    intro a b ha hb hlt
    have hb9 : b ≤ 9999 := by
      have := List.mem_range.mp hb
      omega
    exact chunkName_lt hlt hb9

/-- Witness for C2 (amended) at three entries and chunk size 2. -/
theorem c2_witness :
    C2Prop [(blankEntryU, "a".data), (blankEntryU, "b".data), (blankEntryU, "c".data)] 2 :=
  c2_chunk_manifest Unit _ 2 (by decide) (by decide)

/-! ## Sitemap: supporting lemmas for C3 and C9 -/

theorem sitemapUrls_length (manifest : List MRec) (base_url : Str) :
    (sitemapUrls manifest base_url).length = manifest.length + 1 := by
  simp [sitemapUrls]

theorem write_sitemap_single (manifest : List MRec) (base_url : Str)
    (h : manifest.length + 1 ≤ 50000) :
    write_sitemap manifest base_url =
      ([("sitemap.xml".data, render_urlset (sitemapUrls manifest base_url))], 1) := by
  simp only [write_sitemap]
  rw [if_pos (by rw [sitemapUrls_length]; exact h)]

theorem write_sitemap_split (manifest : List MRec) (base_url : Str)
    (h : ¬(manifest.length + 1 ≤ 50000)) :
    write_sitemap manifest base_url =
      ((List.range (numChunks (manifest.length + 1) 50000)).map
         (fun i => (smName (i + 1),
           render_urlset (((sitemapUrls manifest base_url).drop (i * 50000)).take 50000)))
       ++ [("sitemap.xml".data,
            renderIndexDoc (rstripSlash base_url)
              ((List.range (numChunks (manifest.length + 1) 50000)).map
                (fun i => smName (i + 1))))],
       numChunks (manifest.length + 1) 50000) := by
  simp only [write_sitemap]
  rw [if_neg (by rw [sitemapUrls_length]; exact h)]
  unfold chunksOf
  rw [sitemapUrls_length]
  rw [show manifest.length + 1 + 50000 - 1 = manifest.length + 1 + 50000 - 1 from rfl]
  rw [show (manifest.length + 1 + 50000 - 1) / 50000
        = numChunks (manifest.length + 1) 50000 from rfl]
  rw [enum_map_range, List.map_map, List.map_map, List.length_map, List.length_range]
  rfl

theorem write_sitemap_count (manifest : List MRec) (base_url : Str) :
    (write_sitemap manifest base_url).2 = (manifest.length + 50000) / 50000 := by
  by_cases h : manifest.length + 1 ≤ 50000
  · rw [write_sitemap_single manifest base_url h]
    show 1 = (manifest.length + 50000) / 50000
    have hd : (manifest.length + 50000) / 50000 = 1 :=
      Nat.div_eq_of_lt_le (by omega) (by omega)
    rw [hd]
  · rw [write_sitemap_split manifest base_url h]
    show numChunks (manifest.length + 1) 50000 = _
    unfold numChunks
    have he : manifest.length + 1 + 50000 - 1 = manifest.length + 50000 := by omega
    rw [he]

/-! ## Claim C3 — sitemap URL construction, 50,000-URL splitting, and the
sitemap index -/

/-- C3: the sitemap URL list is the root URL followed by
`{base}/lemma/{slug}` per manifest record; the reported file count is
`⌈(manifest.length + 1) / 50000⌉`; with at most 50,000 URLs exactly one
urlset document `sitemap.xml` is written (count 1), and beyond that the
consecutively numbered sub-sitemaps `sitemap-1.xml`, `sitemap-2.xml`, … each
hold a ≤50,000-URL window of the URL list (together partitioning it in
order) and `sitemap.xml` becomes the index document listing each
sub-sitemap under the base URL; for 50,000 manifest entries (50,001 URLs)
the reported count is exactly 2. -/
theorem c3_sitemap (manifest : List MRec) (base_url : Str) :
    (sitemapUrls manifest base_url).length = manifest.length + 1 ∧
    sitemapUrls manifest base_url =
      (rstripSlash base_url ++ "/".data)
        :: manifest.map (fun m => rstripSlash base_url ++ "/lemma/".data ++ m.slug) ∧
    (write_sitemap manifest base_url).2 = (manifest.length + 50000) / 50000 ∧
    write_sitemap manifest base_url =
      (if manifest.length + 1 ≤ 50000 then
         ([("sitemap.xml".data, render_urlset (sitemapUrls manifest base_url))], 1)
       else
         ((List.range (numChunks (manifest.length + 1) 50000)).map
            (fun i => (smName (i + 1),
              render_urlset
                (((sitemapUrls manifest base_url).drop (i * 50000)).take 50000)))
          ++ [("sitemap.xml".data,
               renderIndexDoc (rstripSlash base_url)
                 ((List.range (numChunks (manifest.length + 1) 50000)).map
                   (fun i => smName (i + 1))))],
          numChunks (manifest.length + 1) 50000)) ∧
    (chunksOf 50000 (sitemapUrls manifest base_url)).flatten
      = sitemapUrls manifest base_url ∧
    (chunksOf 50000 (sitemapUrls manifest base_url)).all
      (fun c => c.length ≤ 50000) = true ∧
    (write_sitemap (List.replicate 50000 blankMRec) base_url).2 = 2 := by
  refine ⟨sitemapUrls_length manifest base_url, rfl,
    write_sitemap_count manifest base_url, ?_, ?_, ?_, ?_⟩
  · split_ifs with h
    · exact write_sitemap_single manifest base_url h
    · exact write_sitemap_split manifest base_url h
  · exact chunksOf_flatten _ 50000 (by omega)
  · rw [List.all_eq_true]
    intro c hc
    unfold chunksOf at hc
    obtain ⟨i, -, rfl⟩ := List.mem_map.mp hc
    rw [decide_eq_true_iff, List.length_take]
    exact Nat.min_le_left _ _
  · rw [write_sitemap_count, List.length_replicate]

/-! ## Claim C9 — the base URL may carry a trailing slash -/

/-- C9: `write_sitemap` produces identical output (files and count) whether
the base URL is passed with or without a trailing slash, because the base is
first stripped of all trailing slashes. -/
theorem c9_base_url_trailing_slash (manifest : List MRec) (base : Str) :
    write_sitemap manifest (base ++ "/".data) = write_sitemap manifest base := by
  have h : rstripSlash (base ++ "/".data) = rstripSlash base := by
    unfold rstripSlash
    rw [show ("/".data : Str) = ['/'] from rfl, List.reverse_append]
    simp [List.dropWhile_cons]
  unfold write_sitemap sitemapUrls
  rw [h]

end Logodaedaly
